import Mathlib

/-!
Verification of `src/tools/parse_docx_to_json.py` (VTNECards).

Shallow embedding conventions:
* Python strings are `List Char` (`Str`); `str.strip()` is `pyStrip`,
  `sep.join(xs)` is `pyJoin sep xs`.
* Python dicts are insertion-ordered association lists (`dget` / `dset`);
  `dset` replaces an existing key in place and appends a fresh key at the
  end, matching CPython dict semantics.
* The zip container of a document is an association list from entry path to
  entry byte content (bytes modelled as `Str`).
* The extraction loop of `extract_images_from_docx` is an explicit fold
  over the relationship-id → target list, carrying the loop state
  (`image_map`, `target_to_final`, `all_final_names`, `counter`) plus the
  trace of file copies performed (`writes`).
-/

/-- Python string, modelled as its list of characters. -/
abbrev Str := List Char

/-- Whitespace characters stripped by Python's `str.strip()` (ASCII subset). -/
def wsChar (c : Char) : Bool :=
  c = ' ' || c = '\t' || c = '\n' || c = '\r' || c = '\x0b' || c = '\x0c'

/-- Python `s.strip()`: drop whitespace from both ends. -/
def pyStrip (s : Str) : Str :=
  ((s.dropWhile wsChar).reverse.dropWhile wsChar).reverse

/-- Python `sep.join(xs)`. -/
def pyJoin (sep : Str) : List Str → Str
  | [] => []
  | [x] => x
  | x :: y :: xs => x ++ sep ++ pyJoin sep (y :: xs)

/-- Python dict lookup `d.get(k)` on an insertion-ordered association list. -/
def dget {V : Type} (d : List (Str × V)) (k : Str) : Option V :=
  match d with
  | [] => none
  | (k', v) :: t => if k' = k then some v else dget t k

/-- Python dict assignment `d[k] = v`: replace in place, else append. -/
def dset {V : Type} (d : List (Str × V)) (k : Str) (v : V) : List (Str × V) :=
  match d with
  | [] => [(k, v)]
  | (k', v') :: t => if k' = k then (k, v) :: t else (k', v') :: dset t k v

/-- Lexicographic comparison of strings by character code, as Python `<=`. -/
def lexLe : Str → Str → Bool
  | [], _ => true
  | _ :: _, [] => false
  | a :: as, b :: bs => if a = b then lexLe as bs else decide (a < b)

/-! ## Image Resolver (`extract_images_from_docx`, lines 106-168) -/

/-- Relationship record of the document part (`doc.part.rels` values). -/
structure DocRel where
  rId : Str
  reltype : Str
  target_ref : Str
deriving DecidableEq

/-- Lines 121-123: keep relationships whose type mentions "image", building
the `relid_to_target` dict in traversal order. -/
def buildRelidToTarget (rels : List DocRel) : List (Str × Str) :=
  rels.foldl
    (fun d r => if "image".toList <:+: r.reltype then dset d r.rId r.target_ref else d) []

/-- Lines 133-138: normalize a relationship target into a zip path: strip one
leading slash, then prefix "word/" unless already present. -/
def normZipPath (t : Str) : Str :=
  let t1 := match t with
    | '/' :: rest => rest
    | _ => t
  if ("word/".toList).isPrefixOf t1 then t1 else "word/".toList ++ t1

/-- Extension part of `os.path.splitext`: the suffix of the last path
component starting at its last dot, where leading dots of the component do
not count as extension separators. -/
def extOf (p : Str) : Str :=
  let base := (p.reverse.takeWhile (fun c => c ≠ '/')).reverse
  if (base.dropWhile (fun c => c = '.')).contains '.' then
    '.' :: (base.reverse.takeWhile (fun c => c ≠ '.')).reverse
  else []

/-- Lines 146-148: original extension of the zip path, defaulting to ".bin". -/
def extOrBin (p : Str) : Str :=
  let e := extOf p
  if e = [] then ".bin".toList else e

/-- Python `f"{n:02d}"`: decimal digits zero-padded to width 2. -/
def fmt02 (n : Nat) : Str :=
  if n < 10 then '0' :: Nat.toDigits 10 n else Nat.toDigits 10 n

/-- Line 150: `f"{doc_basename}_Image{counter:02d}{orig_ext}"`. -/
def imageName (base : Str) (n : Nat) (ext : Str) : Str :=
  base ++ "_Image".toList ++ fmt02 n ++ ext

/-- Loop state of `extract_images_from_docx` (lines 125-128), plus the trace
of zip-entry copies performed: each write is (zip path, final name, bytes). -/
structure ExtractState where
  image_map : List (Str × Str)
  target_to_final : List (Str × Option Str)
  all_final_names : List Str
  counter : Nat
  writes : List (Str × Str × Str)
deriving DecidableEq

/-- Initial loop state (lines 125-128): empty maps, counter 1. -/
def initExtract : ExtractState :=
  { image_map := [], target_to_final := [], all_final_names := [], counter := 1, writes := [] }

/-- Lines 164-166: when a final name was obtained, record it in `image_map`
and in the `all_final_names` set; a `None` final name records nothing. -/
def recordFinal (st : ExtractState) (rid : Str) (fn? : Option Str) : ExtractState :=
  match fn? with
  | some fn =>
      { st with
        image_map := dset st.image_map rid fn
        all_final_names :=
          if fn ∈ st.all_final_names then st.all_final_names else st.all_final_names ++ [fn] }
  | none => st

/-- Loop body of `extract_images_from_docx` (lines 131-166) for one
`(rid, target_ref)` pair, over zip entries `zs`. -/
def extractStep (base : Str) (zs : List (Str × Str)) (st : ExtractState) (rt : Str × Str) :
    ExtractState :=
  let zip_path := normZipPath rt.2
  match dget st.target_to_final zip_path with
  | some fn? => recordFinal st rt.1 fn?
  | none =>
      let final_name := imageName base st.counter (extOrBin zip_path)
      let st1 := { st with counter := st.counter + 1 }
      match dget zs zip_path with
      | some content =>
          let st2 :=
            { st1 with
              target_to_final := dset st1.target_to_final zip_path (some final_name)
              writes := st1.writes ++ [(zip_path, final_name, content)] }
          recordFinal st2 rt.1 (some final_name)
      | none =>
          let st2 :=
            { st1 with target_to_final := dset st1.target_to_final zip_path none }
          recordFinal st2 rt.1 none

/-- Sort a list of strings, as Python `sorted` on strings. -/
def sortStr (l : List Str) : List Str :=
  List.insertionSort (fun a b => lexLe a b = true) l

/-- Whole loop of `extract_images_from_docx` over the `relid_to_target`
items, starting from the initial state. -/
def runExtract (base : Str) (zs : List (Str × Str)) (r2t : List (Str × Str)) : ExtractState :=
  r2t.foldl (extractStep base zs) initExtract

/-! ## Run Renderer (`extract_paragraph_with_images`, lines 39-67) -/

/-- An `<a:blip>` element: its optional `r:embed` attribute. -/
structure Blip where
  embed : Option Str
deriving DecidableEq

/-- A `<w:drawing>` element: its first `<a:blip>` descendant, if any. -/
structure Drawing where
  blip : Option Blip
deriving DecidableEq

/-- A run: its `<w:drawing>` descendants and its plain text. -/
structure Run where
  drawings : List Drawing
  text : Str
deriving DecidableEq

/-- Lines 53-59: relationship id of a drawing resolved through the image
map; `none` when the blip or the `r:embed` attribute is missing, or the id
is not a key of the map. The placeholder is `[[image:<filename>]]`. -/
def drawingToken (m : List (Str × Str)) (d : Drawing) : Option Str :=
  match d.blip with
  | none => none
  | some b =>
      match b.embed with
      | none => none
      | some rid =>
          match dget m rid with
          | none => none
          | some fn => some ("[[image:".toList ++ fn ++ "]]".toList)

/-- Inner loop of lines 52-59: append the placeholder of each resolvable
drawing to the accumulated pieces. -/
def drawingFold (m : List (Str × Str)) (acc : List Str) (d : Drawing) : List Str :=
  match drawingToken m d with
  | some ph => acc ++ [ph]
  | none => acc

/-- Loop body of lines 47-65 for one run: an image-bearing run contributes
only drawing placeholders (its text is skipped by the `continue`), a plain
run contributes its text when non-empty. -/
def runStep (m : List (Str × Str)) (acc : List Str) (run : Run) : List Str :=
  if run.drawings ≠ [] then
    run.drawings.foldl (drawingFold m) acc
  else if run.text ≠ [] then acc ++ [run.text]
  else acc

/-- Lines 39-67: `extract_paragraph_with_images`, for a paragraph given as
its list of runs: concatenate all pieces and strip the result. -/
def extract_paragraph_with_images (runs : List Run) (m : List (Str × Str)) : Str :=
  pyStrip (List.flatten (runs.foldl (runStep m) []))

/-! ## Cell Renderer (lines 19-36, 70-103) -/

/-- An `<w:ilvl>` element; `val` is `none` when `int(ilvl.val)` would raise. -/
structure Ilvl where
  val : Option Int
deriving DecidableEq

/-- A `<w:numPr>` element: its optional `<w:ilvl>` child. -/
structure NumPr where
  ilvl : Option Ilvl
deriving DecidableEq

/-- A `<w:pPr>` element: its optional `<w:numPr>` child. -/
structure PPr where
  numPr : Option NumPr
deriving DecidableEq

/-- A paragraph: its optional properties element and its runs. -/
structure Paragraph where
  pPr : Option PPr
  runs : List Run
deriving DecidableEq

/-- Lines 19-23: a paragraph is a list item when `pPr.numPr` is present. -/
def is_list_paragraph (p : Paragraph) : Bool :=
  match p.pPr with
  | none => false
  | some pr => pr.numPr.isSome

/-- Lines 26-36: numbering level of a paragraph, 0 whenever `pPr`, `numPr`,
`ilvl` is absent or `int(ilvl.val)` fails. -/
def get_list_level (p : Paragraph) : Int :=
  match p.pPr with
  | none => 0
  | some pr =>
      match pr.numPr with
      | none => 0
      | some np =>
          match np.ilvl with
          | none => 0
          | some il =>
              match il.val with
              | none => 0
              | some v => v

/-- Line 85-86: `"\t" * level` then `f"{indent}• {content}"`. A negative
level yields no tabs, as in Python. -/
def bulletLine (level : Int) (content : Str) : Str :=
  List.replicate level.toNat '\t' ++ ('•' :: ' ' :: content)

/-- Lines 70-90: `extract_cell_text_preserve_lists_and_images`, for a cell
given as its list of paragraphs. -/
def extract_cell_text_preserve_lists_and_images (cell : List Paragraph)
    (m : List (Str × Str)) : Str :=
  pyJoin ['\n']
    (cell.foldl
      (fun ls p =>
        let content := extract_paragraph_with_images p.runs m
        if content = [] then ls
        else if is_list_paragraph p then ls ++ [bulletLine (get_list_level p) content]
        else ls ++ [content])
      [])

/-- Lines 93-103: `extract_cell_title_with_images`: join non-empty paragraph
renders with a single space and strip. -/
def extract_cell_title_with_images (cell : List Paragraph) (m : List (Str × Str)) : Str :=
  pyStrip
    (pyJoin [' ']
      (cell.foldl
        (fun parts p =>
          let content := extract_paragraph_with_images p.runs m
          if content = [] then parts else parts ++ [content])
        []))

/-! ## Table Extractor (`parse_docx_table_with_images`, lines 171-205) -/

/-- A table row: its cells, each a list of paragraphs. -/
structure TableRow where
  cells : List (List Paragraph)
deriving DecidableEq

/-- A table: its rows. -/
structure Table where
  rows : List TableRow
deriving DecidableEq

/-- A document: its part relationships, its zip entries (path → bytes), and
its tables. -/
structure Docx where
  rels : List DocRel
  zentries : List (Str × Str)
  tables : List Table
deriving DecidableEq

/-- Lines 106-168: `extract_images_from_docx`, returning the rid → filename
map and the sorted list of final names. -/
def extract_images_from_docx (doc : Docx) (base : Str) : List (Str × Str) × List Str :=
  let st := runExtract base doc.zentries (buildRelidToTarget doc.rels)
  (st.image_map, sortStr st.all_final_names)

/-- Line 181-184: the `IndexError` message raised for a bad table index. -/
def tableIndexError : Str :=
  "table index not present in document".toList

/-- Lines 171-205: `parse_docx_table_with_images`; the result is the card
list (title, detail pairs) and the image file list, or the index error. -/
def parse_docx_table_with_images (doc : Docx) (base : Str) (table_index : Nat)
    (has_header : Bool) : Except Str (List (Str × Str) × List Str) :=
  let em := extract_images_from_docx doc base
  if doc.tables.length ≤ table_index then
    .error tableIndexError
  else
    let table := doc.tables.getD table_index ⟨[]⟩
    let start_row := if has_header then 1 else 0
    let cards :=
      (table.rows.drop start_row).foldl
        (fun cs row =>
          if row.cells.length < 2 then cs
          else
            let title := extract_cell_title_with_images (row.cells.getD 0 []) em.1
            let detail := extract_cell_text_preserve_lists_and_images (row.cells.getD 1 []) em.1
            if title = [] ∧ detail = [] then cs
            else cs ++ [(title, detail)])
        []
    .ok (cards, em.2)

/-! ## Manifest Tracker (lines 210-240, 332-349) -/

/-- A manifest entry: a JSON object with string fields, as a Python dict. -/
abbrev Entry := List (Str × Str)

/-- The manifest index: output filename → entry. -/
abbrev MIndex := List (Str × Entry)

/-- Raw manifest JSON data: the keys the program reads and writes. -/
structure ManifestData where
  generated_at : Option Str
  files : List Entry
deriving DecidableEq

/-- A manifest file on disk: absent, present but malformed JSON, or parsed. -/
abbrev ManifestFile := Option (Option ManifestData)

/-- Line 220: the error `json.load` raises on malformed JSON. -/
def jsonLoadError : Str :=
  "json load failed".toList

/-- Lines 222-227: index the loaded entries by their non-empty "path" field. -/
def buildIndex (files : List Entry) : MIndex :=
  files.foldl
    (fun idx e =>
      match dget e "path".toList with
      | some p => if p = [] then idx else dset idx p e
      | none => idx)
    []

/-- Lines 210-227: `load_manifest`: a missing file gives a fresh empty
manifest; malformed JSON propagates the load error. -/
def load_manifest (file : ManifestFile) : Except Str (ManifestData × MIndex) :=
  match file with
  | none => .ok ({ generated_at := none, files := [] }, [])
  | some none => .error jsonLoadError
  | some (some data) => .ok (data, buildIndex data.files)

/-- One manifest update of lines 336-349: filename key, and the three field
values written for it. -/
structure UpsertOp where
  filename : Str
  typeVal : Str
  sourceDocx : Str
  parsedAt : Str
deriving DecidableEq

/-- Lines 337-341 (and 345-349): overwrite the `type`, `source_docx` and
`parsed_at` fields of an entry. -/
def setFields (e : Entry) (op : UpsertOp) : Entry :=
  dset (dset (dset e "type".toList op.typeVal) "source_docx".toList op.sourceDocx)
    "parsed_at".toList op.parsedAt

/-- Lines 337-341: fetch the entry for the filename (default `{"path": name}`),
overwrite the three fields, and store it back. -/
def upsert (idx : MIndex) (op : UpsertOp) : MIndex :=
  let e := (dget idx op.filename).getD [("path".toList, op.filename)]
  dset idx op.filename (setFields e op)

/-- The manifest updates of one batch, applied in order (main loop). -/
def applyOps (idx : MIndex) (ops : List UpsertOp) : MIndex :=
  ops.foldl upsert idx

/-- Sort key of line 237: the entry's "path" field, defaulting to "". -/
def entryKey (e : Entry) : Str :=
  (dget e "path".toList).getD []

/-- Ordering used by `sorted(index.values(), key=path)`. -/
def entryRel (a b : Entry) : Prop :=
  lexLe (entryKey a) (entryKey b) = true

instance : DecidableRel entryRel := fun a b =>
  inferInstanceAs (Decidable (lexLe (entryKey a) (entryKey b) = true))

/-- Lines 230-240: `save_manifest`: stamp `generated_at` with the current
time and replace `files` with the index values sorted by path. -/
def save_manifest (now : Str) (data : ManifestData) (idx : MIndex) : ManifestData :=
  { data with
    generated_at := some now
    files := List.insertionSort entryRel (idx.map Prod.snd) }

/-! ## Dictionary lemmas -/

theorem dget_nil {V : Type} (k : Str) : dget ([] : List (Str × V)) k = none := rfl

theorem dget_cons {V : Type} (k' : Str) (v : V) (t : List (Str × V)) (k : Str) :
    dget ((k', v) :: t) k = if k' = k then some v else dget t k := rfl

theorem dset_nil {V : Type} (k : Str) (v : V) : dset ([] : List (Str × V)) k v = [(k, v)] := rfl

theorem dset_cons {V : Type} (k' : Str) (v' : V) (t : List (Str × V)) (k : Str) (v : V) :
    dset ((k', v') :: t) k v = if k' = k then (k, v) :: t else (k', v') :: dset t k v := rfl

theorem dget_dset_self {V : Type} (d : List (Str × V)) (k : Str) (v : V) :
    dget (dset d k v) k = some v := by
  induction d with
  | nil => simp [dset_nil, dget_cons]
  | cons hd t ih =>
      obtain ⟨k', v'⟩ := hd
      rw [dset_cons]
      by_cases hk : k' = k
      · simp [hk, dget_cons]
      · simp [hk, dget_cons, ih]

theorem dget_dset_ne {V : Type} (d : List (Str × V)) (k' k : Str) (v : V) (h : k' ≠ k) :
    dget (dset d k' v) k = dget d k := by
  induction d with
  | nil => simp [dset_nil, dget_cons, dget_nil, h]
  | cons hd t ih =>
      obtain ⟨k0, v0⟩ := hd
      rw [dset_cons]
      by_cases hk : k0 = k'
      · subst hk
        simp [dget_cons, h]
      · rw [if_neg hk, dget_cons, dget_cons, ih]

theorem dget_eq_none_iff {V : Type} (d : List (Str × V)) (k : Str) :
    dget d k = none ↔ k ∉ d.map Prod.fst := by
  induction d with
  | nil => simp [dget_nil]
  | cons hd t ih =>
      obtain ⟨k', v⟩ := hd
      rw [dget_cons]
      by_cases hk : k' = k
      · simp only [if_pos hk, List.map_cons, List.mem_cons, not_or]
        constructor
        · intro hc
          exact absurd hc (by simp)
        · intro hc
          exact absurd hk.symm hc.1
      · simp only [if_neg hk, List.map_cons, List.mem_cons, not_or, ih]
        constructor
        · intro hc
          exact ⟨fun he => hk he.symm, hc⟩
        · intro hc
          exact hc.2

theorem dget_isSome_iff {V : Type} (d : List (Str × V)) (k : Str) :
    (dget d k).isSome = true ↔ k ∈ d.map Prod.fst := by
  constructor
  · intro h
    by_contra hmem
    rw [(dget_eq_none_iff d k).mpr hmem] at h
    simp at h
  · intro h
    cases hd : dget d k with
    | none => exact absurd h ((dget_eq_none_iff d k).mp hd)
    | some v => rfl

theorem dset_eq_append {V : Type} (d : List (Str × V)) (k : Str) (v : V)
    (h : dget d k = none) : dset d k v = d ++ [(k, v)] := by
  induction d with
  | nil => simp [dset_nil]
  | cons hd t ih =>
      obtain ⟨k', v'⟩ := hd
      rw [dget_cons] at h
      by_cases hk : k' = k
      · rw [if_pos hk] at h
        exact absurd h (by simp)
      · rw [if_neg hk] at h
        rw [dset_cons, if_neg hk, ih h]
        simp

theorem dget_append {V : Type} (d e : List (Str × V)) (k : Str) :
    dget (d ++ e) k = if (dget d k).isSome then dget d k else dget e k := by
  induction d with
  | nil => simp [dget_nil]
  | cons hd t ih =>
      obtain ⟨k', v'⟩ := hd
      rw [List.cons_append, dget_cons, dget_cons]
      by_cases hk : k' = k
      · simp [hk]
      · simp only [if_neg hk]
        exact ih

theorem map_fst_dset {V : Type} (d : List (Str × V)) (k : Str) (v : V) :
    (dset d k v).map Prod.fst
      = if k ∈ d.map Prod.fst then d.map Prod.fst else d.map Prod.fst ++ [k] := by
  induction d with
  | nil => simp [dset_nil]
  | cons hd t ih =>
      obtain ⟨k', v'⟩ := hd
      rw [dset_cons]
      by_cases hk : k' = k
      · subst hk
        simp only [List.map_cons, List.mem_cons, true_or, if_pos (Or.inl rfl)]
        rfl
      · rw [if_neg hk]
        simp only [List.map_cons, List.mem_cons, ih]
        by_cases hmem : k ∈ t.map Prod.fst
        · rw [if_pos hmem, if_pos (Or.inr hmem)]
        · rw [if_neg hmem, if_neg (by
            intro hor
            rcases hor with hor | hor
            · exact hk hor.symm
            · exact hmem hor)]
          simp

theorem nodup_keys_dset {V : Type} (d : List (Str × V)) (k : Str) (v : V)
    (h : (d.map Prod.fst).Nodup) : ((dset d k v).map Prod.fst).Nodup := by
  rw [map_fst_dset]
  by_cases hmem : k ∈ d.map Prod.fst
  · rwa [if_pos hmem]
  · rw [if_neg hmem]
    refine List.Nodup.append h (List.nodup_singleton k) ?_
    intro a ha hb
    rw [List.mem_singleton] at hb
    exact hmem (hb ▸ ha)

theorem mem_of_dget {V : Type} (d : List (Str × V)) (k : Str) (v : V)
    (h : dget d k = some v) : (k, v) ∈ d := by
  induction d with
  | nil => simp [dget_nil] at h
  | cons hd t ih =>
      obtain ⟨k', v'⟩ := hd
      rw [dget_cons] at h
      by_cases hk : k' = k
      · rw [if_pos hk] at h
        injection h with h
        subst hk
        subst h
        exact List.mem_cons_self _ _
      · rw [if_neg hk] at h
        exact List.mem_cons_of_mem _ (ih h)

theorem dget_of_nodup_getElem {V : Type} (d : List (Str × V)) (i : Nat) (k : Str) (v : V)
    (hnd : (d.map Prod.fst).Nodup) (h : d[i]? = some (k, v)) : dget d k = some v := by
  induction d generalizing i with
  | nil => simp at h
  | cons hd t ih =>
      obtain ⟨k', v'⟩ := hd
      rw [List.map_cons, List.nodup_cons] at hnd
      cases i with
      | zero =>
          simp at h
          rw [dget_cons, if_pos h.1, h.2]
      | succ n =>
          simp only [List.getElem?_cons_succ] at h
          have hmem : (k, v) ∈ t := List.mem_iff_getElem?.mpr ⟨n, h⟩
          have hkmem : k ∈ t.map Prod.fst := List.mem_map.mpr ⟨(k, v), hmem, rfl⟩
          have hk : k' ≠ k := fun he => hnd.1 (he ▸ hkmem)
          rw [dget_cons, if_neg hk]
          exact ih n hnd.2 h

/-! ## String lemmas -/

theorem dropWhile_head_not {α : Type} (p : α → Bool) (l : List α) (b : α) (t : List α)
    (h : l.dropWhile p = b :: t) : p b = false := by
  induction l with
  | nil => simp [List.dropWhile] at h
  | cons a l ih =>
      rw [List.dropWhile_cons] at h
      by_cases hp : p a = true
      · rw [if_pos hp] at h
        exact ih h
      · rw [if_neg hp] at h
        injection h with h1 _
        subst h1
        simpa using hp

theorem dropWhile_dropWhile {α : Type} (p : α → Bool) (l : List α) :
    (l.dropWhile p).dropWhile p = l.dropWhile p := by
  cases h : l.dropWhile p with
  | nil => rfl
  | cons b t =>
      rw [List.dropWhile_cons, if_neg (by simp [dropWhile_head_not p l b t h])]

theorem forall_mem_dropWhile_iff (p : Char → Bool) (s : Str) :
    (∀ c ∈ s.dropWhile p, p c = true) ↔ (∀ c ∈ s, p c = true) := by
  constructor
  · intro h c hc
    rcases List.mem_append.mp ((List.takeWhile_append_dropWhile p s) ▸ hc) with hc | hc
    · exact List.mem_takeWhile_imp hc
    · exact h c hc
  · intro h c hc
    exact h c ((List.dropWhile_sublist p).subset hc)

theorem pyStrip_eq_nil_iff (s : Str) :
    pyStrip s = [] ↔ ∀ c ∈ s, wsChar c = true := by
  unfold pyStrip
  rw [List.reverse_eq_nil_iff, List.dropWhile_eq_nil_iff]
  constructor
  · intro h
    rw [← forall_mem_dropWhile_iff wsChar s]
    intro c hc
    exact h c (List.mem_reverse.mpr hc)
  · intro h c hc
    exact (forall_mem_dropWhile_iff wsChar s).mpr h c (List.mem_reverse.mp hc)

theorem stripped_prefix_dropWhile {α : Type} (p : α → Bool) (l : List α)
    (h : l.dropWhile p = l) :
    ((l.reverse.dropWhile p).reverse).dropWhile p = (l.reverse.dropWhile p).reverse := by
  have hsplit : (l.reverse.dropWhile p).reverse ++ (l.reverse.takeWhile p).reverse = l := by
    rw [← List.reverse_append, List.takeWhile_append_dropWhile, List.reverse_reverse]
  cases hq : (l.reverse.dropWhile p).reverse with
  | nil => rfl
  | cons b t =>
      rw [hq] at hsplit
      rw [List.cons_append] at hsplit
      have hpb : p b = false := by
        by_contra hpb
        rw [Bool.not_eq_false] at hpb
        have hdw := h
        rw [← hsplit, List.dropWhile_cons, if_pos hpb] at hdw
        have hlen : (List.dropWhile p (t ++ (l.reverse.takeWhile p).reverse)).length
            ≤ (t ++ (l.reverse.takeWhile p).reverse).length :=
          (List.dropWhile_sublist p).length_le
        rw [hdw] at hlen
        simp at hlen
      rw [List.dropWhile_cons, if_neg (by simp [hpb])]

theorem pyStrip_front (s : Str) : (pyStrip s).dropWhile wsChar = pyStrip s :=
  stripped_prefix_dropWhile wsChar (s.dropWhile wsChar) (dropWhile_dropWhile wsChar s)

theorem pyStrip_back (s : Str) : (pyStrip s).reverse.dropWhile wsChar = (pyStrip s).reverse := by
  unfold pyStrip
  rw [List.reverse_reverse]
  exact dropWhile_dropWhile wsChar _

theorem pyStrip_idem (s : Str) : pyStrip (pyStrip s) = pyStrip s := by
  conv_lhs => rw [pyStrip, pyStrip_front s, pyStrip_back s]
  exact List.reverse_reverse _

theorem mem_pyJoin (sep : Str) (lines : List Str) (l : Str) (c : Char)
    (hl : l ∈ lines) (hc : c ∈ l) : c ∈ pyJoin sep lines := by
  induction lines with
  | nil => simp at hl
  | cons x rest ih =>
      cases rest with
      | nil =>
          rw [List.mem_singleton] at hl
          subst hl
          exact hc
      | cons y t =>
          rw [List.mem_cons] at hl
          rcases hl with hl | hl
          · subst hl
            exact List.mem_append.mpr (Or.inl (List.mem_append.mpr (Or.inl hc)))
          · exact List.mem_append.mpr (Or.inr (ih hl))

theorem pyJoin_eq_nil_iff (sep : Str) (lines : List Str)
    (h : ∀ l ∈ lines, l ≠ []) : pyJoin sep lines = [] ↔ lines = [] := by
  cases lines with
  | nil => simp [pyJoin]
  | cons x rest =>
      cases rest with
      | nil =>
          simp only [pyJoin]
          have := h x (by simp)
          simp [this]
      | cons y t =>
          simp only [pyJoin]
          have := h x (by simp)
          simp [this]

theorem pyStrip_pyJoin_eq_nil (sep : Str) (lines : List Str)
    (h : ∀ l ∈ lines, ∃ c ∈ l, wsChar c = false) :
    pyStrip (pyJoin sep lines) = [] ↔ pyJoin sep lines = [] := by
  constructor
  · intro hs
    cases hl : lines with
    | nil => simp [hl, pyJoin]
    | cons x rest =>
        exfalso
        obtain ⟨c, hc, hcw⟩ := h x (by simp [hl])
        have hmem : c ∈ pyJoin sep lines := mem_pyJoin sep lines x c (by simp [hl]) hc
        have := (pyStrip_eq_nil_iff _).mp hs c hmem
        rw [this] at hcw
        exact Bool.noConfusion hcw
  · intro hs
    rw [hs]
    rfl

/-! ## Fold characterizations -/

theorem foldl_opt_acc {α β : Type} (f : α → Option β) (step : List β → α → List β)
    (hstep : ∀ acc a, step acc a = match f a with
      | none => acc
      | some x => acc ++ [x])
    (l : List α) (acc : List β) :
    l.foldl step acc = acc ++ l.filterMap f := by
  induction l generalizing acc with
  | nil => simp
  | cons a t ih =>
      rw [List.foldl_cons, ih, hstep]
      cases hf : f a with
      | none => simp [List.filterMap_cons, hf]
      | some x => simp [List.filterMap_cons, hf]

theorem foldl_pieces_acc {α β : Type} (g : α → List β) (step : List β → α → List β)
    (hstep : ∀ acc a, step acc a = acc ++ g a)
    (l : List α) (acc : List β) :
    l.foldl step acc = acc ++ l.flatMap g := by
  induction l generalizing acc with
  | nil => simp
  | cons a t ih =>
      rw [List.foldl_cons, ih, hstep]
      simp [List.flatMap_cons]

/-! ## Expected extraction state -/

/-- Final name the loop assigns to the n-th distinct container path `p`:
present in the container → the sequential image name, absent → `none`. -/
def resolvedName (base : Str) (zs : List (Str × Str)) (n : Nat) (p : Str) : Option Str :=
  match dget zs p with
  | some _ => some (imageName base n (extOrBin p))
  | none => none

/-- Insert a path into the list of distinct paths in first-seen order. -/
def fsIns (acc : List Str) (p : Str) : List Str :=
  if p ∈ acc then acc else acc ++ [p]

/-- Distinct container paths in first-seen order. -/
def firstSeen (ps : List Str) : List Str :=
  ps.foldl fsIns []

/-- Insert a path into the expected `target_to_final` dict: a fresh path is
resolved with the next sequence number (number of entries so far, plus 1). -/
def ttfIns (base : Str) (zs : List (Str × Str)) (acc : List (Str × Option Str)) (p : Str) :
    List (Str × Option Str) :=
  if (dget acc p).isSome then acc else acc ++ [(p, resolvedName base zs (acc.length + 1) p)]

/-- Expected final value of `target_to_final` after processing paths `ps`. -/
def expTtf (base : Str) (zs : List (Str × Str)) (ps : List Str) : List (Str × Option Str) :=
  ps.foldl (ttfIns base zs) []

/-- The zip-entry copy a resolved path produces, if its extraction succeeded. -/
def writeOf (zs : List (Str × Str)) (pv : Str × Option Str) : Option (Str × Str × Str) :=
  match pv.2 with
  | some fn => (dget zs pv.1).map (fun c => (pv.1, fn, c))
  | none => none

/-- Expected trace of zip-entry copies after processing paths `ps`. -/
def expWrites (base : Str) (zs : List (Str × Str)) (ps : List Str) : List (Str × Str × Str) :=
  (expTtf base zs ps).filterMap (writeOf zs)

/-- Normalized container paths of a `relid_to_target` list, in order. -/
def pathsOf (r2t : List (Str × Str)) : List Str :=
  r2t.map (fun rt => normZipPath rt.2)

theorem pathsOf_concat (l : List (Str × Str)) (rt : Str × Str) :
    pathsOf (l ++ [rt]) = pathsOf l ++ [normZipPath rt.2] := by
  simp [pathsOf]

theorem mem_foldl_fsIns (ps : List Str) (acc : List Str) (q : Str) :
    q ∈ ps.foldl fsIns acc ↔ q ∈ acc ∨ q ∈ ps := by
  induction ps generalizing acc with
  | nil => simp
  | cons p t ih =>
      rw [List.foldl_cons, ih]
      unfold fsIns
      by_cases hmem : p ∈ acc
      · rw [if_pos hmem]
        constructor
        · intro h
          rcases h with h | h
          · exact Or.inl h
          · exact Or.inr (List.mem_cons_of_mem _ h)
        · intro h
          rcases h with h | h
          · exact Or.inl h
          · rcases List.mem_cons.mp h with h | h
            · exact Or.inl (h ▸ hmem)
            · exact Or.inr h
      · rw [if_neg hmem]
        constructor
        · intro h
          rcases h with h | h
          · rcases List.mem_append.mp h with h | h
            · exact Or.inl h
            · exact Or.inr (List.mem_cons.mpr (Or.inl (List.mem_singleton.mp h)))
          · exact Or.inr (List.mem_cons_of_mem _ h)
        · intro h
          rcases h with h | h
          · exact Or.inl (List.mem_append.mpr (Or.inl h))
          · rcases List.mem_cons.mp h with h | h
            · exact Or.inl (List.mem_append.mpr (Or.inr (by simp [h])))
            · exact Or.inr h

theorem mem_firstSeen (ps : List Str) (q : Str) : q ∈ firstSeen ps ↔ q ∈ ps := by
  rw [firstSeen, mem_foldl_fsIns]
  simp

theorem nodup_foldl_fsIns (ps : List Str) (acc : List Str) (h : acc.Nodup) :
    (ps.foldl fsIns acc).Nodup := by
  induction ps generalizing acc with
  | nil => exact h
  | cons p t ih =>
      rw [List.foldl_cons]
      refine ih _ ?_
      unfold fsIns
      by_cases hmem : p ∈ acc
      · rwa [if_pos hmem]
      · rw [if_neg hmem]
        refine List.Nodup.append h (List.nodup_singleton p) ?_
        intro a ha hb
        rw [List.mem_singleton] at hb
        exact hmem (hb ▸ ha)

theorem nodup_firstSeen (ps : List Str) : (firstSeen ps).Nodup :=
  nodup_foldl_fsIns ps [] List.nodup_nil

theorem firstSeen_concat (ps : List Str) (p : Str) :
    firstSeen (ps ++ [p])
      = if p ∈ firstSeen ps then firstSeen ps else firstSeen ps ++ [p] := by
  rw [firstSeen, List.foldl_append]
  rfl

theorem expTtf_concat (base : Str) (zs : List (Str × Str)) (ps : List Str) (p : Str) :
    expTtf base zs (ps ++ [p])
      = if (dget (expTtf base zs ps) p).isSome then expTtf base zs ps
        else expTtf base zs ps
          ++ [(p, resolvedName base zs ((expTtf base zs ps).length + 1) p)] := by
  rw [expTtf, List.foldl_append]
  rfl

theorem map_fst_foldl_ttfIns (base : Str) (zs : List (Str × Str)) (ps : List Str)
    (acc : List (Str × Option Str)) :
    (ps.foldl (ttfIns base zs) acc).map Prod.fst = ps.foldl fsIns (acc.map Prod.fst) := by
  induction ps generalizing acc with
  | nil => rfl
  | cons p t ih =>
      rw [List.foldl_cons, List.foldl_cons, ih]
      congr 1
      unfold ttfIns fsIns
      by_cases hmem : p ∈ acc.map Prod.fst
      · rw [if_pos ((dget_isSome_iff acc p).mpr hmem), if_pos hmem]
      · rw [if_neg (by rw [dget_isSome_iff]; exact hmem), if_neg hmem, List.map_append]
        rfl

theorem map_fst_expTtf (base : Str) (zs : List (Str × Str)) (ps : List Str) :
    (expTtf base zs ps).map Prod.fst = firstSeen ps :=
  map_fst_foldl_ttfIns base zs ps []

theorem length_expTtf (base : Str) (zs : List (Str × Str)) (ps : List Str) :
    (expTtf base zs ps).length = (firstSeen ps).length := by
  rw [← map_fst_expTtf base zs ps, List.length_map]

theorem nodup_keys_expTtf (base : Str) (zs : List (Str × Str)) (ps : List Str) :
    ((expTtf base zs ps).map Prod.fst).Nodup := by
  rw [map_fst_expTtf]
  exact nodup_firstSeen ps

theorem expTtf_getElem (base : Str) (zs : List (Str × Str)) (ps : List Str) (i : Nat) (p : Str)
    (h : (firstSeen ps)[i]? = some p) :
    (expTtf base zs ps)[i]? = some (p, resolvedName base zs (i + 1) p) := by
  induction ps using List.reverseRecOn generalizing i with
  | nil => simp [firstSeen] at h
  | append_singleton ps q ih =>
      rw [firstSeen_concat] at h
      rw [expTtf_concat]
      by_cases hmem : q ∈ firstSeen ps
      · rw [if_pos hmem] at h
        rw [if_pos (by rw [dget_isSome_iff, map_fst_expTtf]; exact hmem)]
        exact ih i h
      · rw [if_neg hmem] at h
        rw [if_neg (by rw [dget_isSome_iff, map_fst_expTtf]; exact hmem)]
        rcases lt_trichotomy i (firstSeen ps).length with hi | hi | hi
        · rw [List.getElem?_append_left hi] at h
          rw [List.getElem?_append_left (by rw [length_expTtf]; exact hi)]
          exact ih i h
        · subst hi
          rw [List.getElem?_concat_length] at h
          injection h with h
          subst h
          have hlen : (firstSeen ps).length = (expTtf base zs ps).length :=
            (length_expTtf base zs ps).symm
          rw [hlen, List.getElem?_concat_length, length_expTtf]
        · rw [List.getElem?_eq_none (by simp; omega)] at h
          exact absurd h (by simp)

theorem dget_expTtf_getElem (base : Str) (zs : List (Str × Str)) (ps : List Str) (i : Nat)
    (p : Str) (h : (firstSeen ps)[i]? = some p) :
    dget (expTtf base zs ps) p = some (resolvedName base zs (i + 1) p) :=
  dget_of_nodup_getElem _ i _ _ (nodup_keys_expTtf base zs ps) (expTtf_getElem base zs ps i p h)

theorem dget_expTtf_eq_none_iff (base : Str) (zs : List (Str × Str)) (ps : List Str) (p : Str) :
    dget (expTtf base zs ps) p = none ↔ p ∉ ps := by
  rw [dget_eq_none_iff, map_fst_expTtf, mem_firstSeen]

theorem mem_fst_filterMap_writeOf (zs : List (Str × Str)) (d : List (Str × Option Str))
    (q : Str) (h : q ∈ (d.filterMap (writeOf zs)).map (fun w => w.1)) :
    (dget zs q).isSome = true := by
  induction d with
  | nil => simp at h
  | cons pv d ih =>
      obtain ⟨p, v⟩ := pv
      rw [List.filterMap_cons] at h
      cases hv : v with
      | none =>
          rw [hv] at h
          exact ih h
      | some fn =>
          rw [hv] at h
          cases hz : dget zs p with
          | none =>
              rw [show writeOf zs (p, some fn) = none by simp [writeOf, hz]] at h
              exact ih h
          | some c =>
              rw [show writeOf zs (p, some fn) = some (p, fn, c) by simp [writeOf, hz]] at h
              rw [List.map_cons, List.mem_cons] at h
              rcases h with h | h
              · rw [h, hz]
                rfl
              · exact ih h

theorem fst_filterMap_writeOf_sublist (zs : List (Str × Str)) (d : List (Str × Option Str)) :
    ((d.filterMap (writeOf zs)).map (fun w => w.1)).Sublist (d.map Prod.fst) := by
  induction d with
  | nil => simp
  | cons pv d ih =>
      obtain ⟨p, v⟩ := pv
      rw [List.filterMap_cons, List.map_cons]
      cases hv : v with
      | none => exact ih.cons p
      | some fn =>
          cases hz : dget zs p with
          | none =>
              rw [show writeOf zs (p, some fn) = none by simp [writeOf, hz]]
              exact ih.cons p
          | some c =>
              rw [show writeOf zs (p, some fn) = some (p, fn, c) by simp [writeOf, hz]]
              rw [List.map_cons]
              exact ih.cons₂ p

theorem nodup_fst_expWrites (base : Str) (zs : List (Str × Str)) (ps : List Str) :
    ((expWrites base zs ps).map (fun w => w.1)).Nodup :=
  (nodup_keys_expTtf base zs ps).sublist (fst_filterMap_writeOf_sublist zs (expTtf base zs ps))

/-! ## Extraction loop invariant -/

theorem recordFinal_target (st : ExtractState) (rid : Str) (fn? : Option Str) :
    (recordFinal st rid fn?).target_to_final = st.target_to_final := by
  cases fn? <;> rfl

theorem recordFinal_counter (st : ExtractState) (rid : Str) (fn? : Option Str) :
    (recordFinal st rid fn?).counter = st.counter := by
  cases fn? <;> rfl

theorem recordFinal_writes (st : ExtractState) (rid : Str) (fn? : Option Str) :
    (recordFinal st rid fn?).writes = st.writes := by
  cases fn? <;> rfl

theorem recordFinal_image_map_some (st : ExtractState) (rid : Str) (fn : Str) :
    (recordFinal st rid (some fn)).image_map = dset st.image_map rid fn := rfl

theorem recordFinal_image_map_none (st : ExtractState) (rid : Str) :
    (recordFinal st rid none).image_map = st.image_map := rfl

theorem extractStep_cached (base : Str) (zs : List (Str × Str)) (st : ExtractState)
    (rt : Str × Str) (fn? : Option Str)
    (h : dget st.target_to_final (normZipPath rt.2) = some fn?) :
    extractStep base zs st rt = recordFinal st rt.1 fn? := by
  simp only [extractStep, h]

theorem extractStep_fresh_found (base : Str) (zs : List (Str × Str)) (st : ExtractState)
    (rt : Str × Str) (content : Str)
    (h1 : dget st.target_to_final (normZipPath rt.2) = none)
    (h2 : dget zs (normZipPath rt.2) = some content) :
    extractStep base zs st rt
      = recordFinal
          { st with
            counter := st.counter + 1
            target_to_final := dset st.target_to_final (normZipPath rt.2)
              (some (imageName base st.counter (extOrBin (normZipPath rt.2))))
            writes := st.writes
              ++ [(normZipPath rt.2, imageName base st.counter (extOrBin (normZipPath rt.2)),
                   content)] }
          rt.1 (some (imageName base st.counter (extOrBin (normZipPath rt.2)))) := by
  simp only [extractStep, h1, h2]

theorem extractStep_fresh_missing (base : Str) (zs : List (Str × Str)) (st : ExtractState)
    (rt : Str × Str)
    (h1 : dget st.target_to_final (normZipPath rt.2) = none)
    (h2 : dget zs (normZipPath rt.2) = none) :
    extractStep base zs st rt
      = recordFinal
          { st with
            counter := st.counter + 1
            target_to_final := dset st.target_to_final (normZipPath rt.2) none }
          rt.1 none := by
  simp only [extractStep, h1, h2]

/-- Invariant tying the loop state after processing pairs `l` to the
expected state computed from the normalized paths of `l`. -/
def ExtractInv (base : Str) (zs : List (Str × Str)) (l : List (Str × Str))
    (st : ExtractState) : Prop :=
  st.target_to_final = expTtf base zs (pathsOf l)
  ∧ st.counter = (expTtf base zs (pathsOf l)).length + 1
  ∧ st.writes = expWrites base zs (pathsOf l)
  ∧ (∀ rt ∈ l, dget st.image_map rt.1 = (dget st.target_to_final (normZipPath rt.2)).join)
  ∧ (∀ k, dget st.image_map k ≠ none → k ∈ l.map Prod.fst)

theorem extractInv_step (base : Str) (zs : List (Str × Str)) (l : List (Str × Str))
    (st : ExtractState) (rt : Str × Str) (hinv : ExtractInv base zs l st)
    (hfresh : rt.1 ∉ l.map Prod.fst) :
    ExtractInv base zs (l ++ [rt]) (extractStep base zs st rt) := by
  obtain ⟨h1, h2, h3, h4, h5⟩ := hinv
  by_cases hmem : normZipPath rt.2 ∈ pathsOf l
  · -- cached path: the loop reuses the stored final name
    have hSome : (dget st.target_to_final (normZipPath rt.2)).isSome = true := by
      rw [h1, dget_isSome_iff, map_fst_expTtf, mem_firstSeen]
      exact hmem
    obtain ⟨v, hv⟩ : ∃ v, dget st.target_to_final (normZipPath rt.2) = some v := by
      cases hd : dget st.target_to_final (normZipPath rt.2) with
      | none => rw [hd] at hSome; simp at hSome
      | some v => exact ⟨v, rfl⟩
    have hEtf : expTtf base zs (pathsOf (l ++ [rt])) = expTtf base zs (pathsOf l) := by
      rw [pathsOf_concat, expTtf_concat,
        if_pos (by rw [← h1, hv]; rfl)]
    have hW : expWrites base zs (pathsOf (l ++ [rt])) = expWrites base zs (pathsOf l) := by
      rw [expWrites, hEtf]
      rfl
    rw [extractStep_cached base zs st rt v hv]
    refine ⟨?_, ?_, ?_, ?_, ?_⟩
    · rw [recordFinal_target, hEtf]
      exact h1
    · rw [recordFinal_counter, hEtf]
      exact h2
    · rw [recordFinal_writes, hW]
      exact h3
    · intro rt' hrt'
      rw [recordFinal_target]
      rcases List.mem_append.mp hrt' with hrt' | hrt'
      · have hne : rt.1 ≠ rt'.1 := by
          intro he
          exact hfresh (he ▸ List.mem_map.mpr ⟨rt', hrt', rfl⟩)
        cases v with
        | some fn =>
            rw [recordFinal_image_map_some, dget_dset_ne _ _ _ _ hne]
            exact h4 rt' hrt'
        | none =>
            rw [recordFinal_image_map_none]
            exact h4 rt' hrt'
      · rw [List.mem_singleton] at hrt'
        rw [hrt']
        rw [hv]
        cases v with
        | some fn =>
            rw [recordFinal_image_map_some, dget_dset_self]
            rfl
        | none =>
            rw [recordFinal_image_map_none]
            have : dget st.image_map rt.1 = none := by
              by_contra hc
              exact hfresh (h5 rt.1 hc)
            rw [this]
            rfl
    · intro k hk
      rw [List.map_append]
      cases v with
      | some fn =>
          rw [recordFinal_image_map_some] at hk
          by_cases hke : rt.1 = k
          · exact List.mem_append.mpr (Or.inr (by simp [hke]))
          · rw [dget_dset_ne _ _ _ _ hke] at hk
            exact List.mem_append.mpr (Or.inl (h5 k hk))
      | none =>
          rw [recordFinal_image_map_none] at hk
          exact List.mem_append.mpr (Or.inl (h5 k hk))
  · -- fresh path: a new sequence number is consumed
    have hNone : dget st.target_to_final (normZipPath rt.2) = none := by
      rw [h1, dget_expTtf_eq_none_iff]
      exact hmem
    have hcond : ¬ (dget (expTtf base zs (pathsOf l)) (normZipPath rt.2)).isSome = true := by
      rw [← h1, hNone]
      simp
    have hEtf : expTtf base zs (pathsOf (l ++ [rt]))
        = expTtf base zs (pathsOf l)
          ++ [(normZipPath rt.2,
               resolvedName base zs ((expTtf base zs (pathsOf l)).length + 1) (normZipPath rt.2))] := by
      rw [pathsOf_concat, expTtf_concat, if_neg hcond]
    have hlen : (expTtf base zs (pathsOf (l ++ [rt]))).length
        = (expTtf base zs (pathsOf l)).length + 1 := by
      rw [hEtf, List.length_append]
      rfl
    have hresn : resolvedName base zs ((expTtf base zs (pathsOf l)).length + 1) (normZipPath rt.2)
        = resolvedName base zs st.counter (normZipPath rt.2) := by
      rw [h2]
    have hOldKeep : ∀ q, q ∈ pathsOf l →
        dget (expTtf base zs (pathsOf (l ++ [rt]))) q = dget (expTtf base zs (pathsOf l)) q := by
      intro q hq
      have : (dget (expTtf base zs (pathsOf l)) q).isSome = true := by
        rw [dget_isSome_iff, map_fst_expTtf, mem_firstSeen]
        exact hq
      rw [hEtf, dget_append, if_pos this]
    have hNewGet : dget (expTtf base zs (pathsOf (l ++ [rt]))) (normZipPath rt.2)
        = some (resolvedName base zs st.counter (normZipPath rt.2)) := by
      rw [hEtf, dget_append, if_neg (by rw [h1] at hNone; rw [hNone]; simp), hresn]
      rw [dget_cons, if_pos rfl]
    cases hz : dget zs (normZipPath rt.2) with
    | some content =>
        have hres : resolvedName base zs st.counter (normZipPath rt.2)
            = some (imageName base st.counter (extOrBin (normZipPath rt.2))) := by
          unfold resolvedName
          rw [hz]
        rw [extractStep_fresh_found base zs st rt content hNone hz]
        refine ⟨?_, ?_, ?_, ?_, ?_⟩
        · rw [recordFinal_target]
          show dset st.target_to_final (normZipPath rt.2)
              (some (imageName base st.counter (extOrBin (normZipPath rt.2))))
            = expTtf base zs (pathsOf (l ++ [rt]))
          rw [dset_eq_append _ _ _ hNone, hEtf, h1, hresn, hres]
        · rw [recordFinal_counter]
          show st.counter + 1 = (expTtf base zs (pathsOf (l ++ [rt]))).length + 1
          rw [hlen, h2]
        · rw [recordFinal_writes]
          show st.writes ++ _ = expWrites base zs (pathsOf (l ++ [rt]))
          rw [expWrites, hEtf, List.filterMap_append, ← expWrites, h3, hresn, hres]
          congr 1
          rw [List.filterMap_cons]
          rw [show writeOf zs (normZipPath rt.2,
              some (imageName base st.counter (extOrBin (normZipPath rt.2))))
            = some (normZipPath rt.2, imageName base st.counter (extOrBin (normZipPath rt.2)),
                content) by simp [writeOf, hz]]
          rfl
        · intro rt' hrt'
          rw [recordFinal_target]
          have hT : dset st.target_to_final (normZipPath rt.2)
              (some (imageName base st.counter (extOrBin (normZipPath rt.2))))
            = expTtf base zs (pathsOf (l ++ [rt])) := by
            rw [dset_eq_append _ _ _ hNone, hEtf, h1, hresn, hres]
          rw [show ({ st with
              counter := st.counter + 1
              target_to_final := dset st.target_to_final (normZipPath rt.2)
                (some (imageName base st.counter (extOrBin (normZipPath rt.2))))
              writes := st.writes ++ [(normZipPath rt.2,
                imageName base st.counter (extOrBin (normZipPath rt.2)), content)] }
              : ExtractState).target_to_final
            = dset st.target_to_final (normZipPath rt.2)
                (some (imageName base st.counter (extOrBin (normZipPath rt.2)))) from rfl, hT]
          rcases List.mem_append.mp hrt' with hrt' | hrt'
          · have hne : rt.1 ≠ rt'.1 := by
              intro he
              exact hfresh (he ▸ List.mem_map.mpr ⟨rt', hrt', rfl⟩)
            rw [recordFinal_image_map_some]
            show dget (dset st.image_map rt.1
                (imageName base st.counter (extOrBin (normZipPath rt.2)))) rt'.1 = _
            rw [dget_dset_ne _ _ _ _ hne, hOldKeep (normZipPath rt'.2)
              (List.mem_map.mpr ⟨rt', hrt', rfl⟩), ← h1]
            exact h4 rt' hrt'
          · rw [List.mem_singleton] at hrt'
            rw [hrt']
            rw [recordFinal_image_map_some]
            show dget (dset st.image_map rt.1
                (imageName base st.counter (extOrBin (normZipPath rt.2)))) rt.1 = _
            rw [dget_dset_self, hNewGet, hres]
            rfl
        · intro k hk
          rw [recordFinal_image_map_some] at hk
          rw [List.map_append]
          by_cases hke : rt.1 = k
          · exact List.mem_append.mpr (Or.inr (by simp [hke]))
          · rw [show ({ st with
                counter := st.counter + 1
                target_to_final := dset st.target_to_final (normZipPath rt.2)
                  (some (imageName base st.counter (extOrBin (normZipPath rt.2))))
                writes := st.writes ++ [(normZipPath rt.2,
                  imageName base st.counter (extOrBin (normZipPath rt.2)), content)] }
                : ExtractState).image_map = st.image_map from rfl] at hk
            rw [dget_dset_ne _ _ _ _ hke] at hk
            exact List.mem_append.mpr (Or.inl (h5 k hk))
    | none =>
        have hres : resolvedName base zs st.counter (normZipPath rt.2) = none := by
          unfold resolvedName
          rw [hz]
        rw [extractStep_fresh_missing base zs st rt hNone hz]
        refine ⟨?_, ?_, ?_, ?_, ?_⟩
        · rw [recordFinal_target]
          show dset st.target_to_final (normZipPath rt.2) none
            = expTtf base zs (pathsOf (l ++ [rt]))
          rw [dset_eq_append _ _ _ hNone, hEtf, h1, hresn, hres]
        · rw [recordFinal_counter]
          show st.counter + 1 = (expTtf base zs (pathsOf (l ++ [rt]))).length + 1
          rw [hlen, h2]
        · rw [recordFinal_writes]
          show st.writes = expWrites base zs (pathsOf (l ++ [rt]))
          rw [expWrites, hEtf, List.filterMap_append, ← expWrites, h3, hresn, hres]
          rw [show List.filterMap (writeOf zs) [(normZipPath rt.2, (none : Option Str))] = [] by
            simp [writeOf]]
          rw [List.append_nil]
        · intro rt' hrt'
          rw [recordFinal_target]
          have hT : dset st.target_to_final (normZipPath rt.2) none
              = expTtf base zs (pathsOf (l ++ [rt])) := by
            rw [dset_eq_append _ _ _ hNone, hEtf, h1, hresn, hres]
          rw [show ({ st with
              counter := st.counter + 1
              target_to_final := dset st.target_to_final (normZipPath rt.2) none }
              : ExtractState).target_to_final
            = dset st.target_to_final (normZipPath rt.2) none from rfl, hT]
          rw [recordFinal_image_map_none]
          rcases List.mem_append.mp hrt' with hrt' | hrt'
          · rw [show ({ st with
                counter := st.counter + 1
                target_to_final := dset st.target_to_final (normZipPath rt.2) none }
                : ExtractState).image_map = st.image_map from rfl]
            rw [hOldKeep (normZipPath rt'.2) (List.mem_map.mpr ⟨rt', hrt', rfl⟩), ← h1]
            exact h4 rt' hrt'
          · rw [List.mem_singleton] at hrt'
            rw [hrt']
            rw [show ({ st with
                counter := st.counter + 1
                target_to_final := dset st.target_to_final (normZipPath rt.2) none }
                : ExtractState).image_map = st.image_map from rfl]
            have him : dget st.image_map rt.1 = none := by
              by_contra hc
              exact hfresh (h5 rt.1 hc)
            rw [him, hNewGet, hres]
            rfl
        · intro k hk
          rw [recordFinal_image_map_none] at hk
          rw [show ({ st with
              counter := st.counter + 1
              target_to_final := dset st.target_to_final (normZipPath rt.2) none }
              : ExtractState).image_map = st.image_map from rfl] at hk
          rw [List.map_append]
          exact List.mem_append.mpr (Or.inl (h5 k hk))

theorem runExtract_inv (base : Str) (zs : List (Str × Str)) (l : List (Str × Str))
    (hnd : (l.map Prod.fst).Nodup) : ExtractInv base zs l (runExtract base zs l) := by
  induction l using List.reverseRecOn with
  | nil =>
      refine ⟨rfl, rfl, rfl, ?_, ?_⟩
      · intro rt hrt
        simp at hrt
      · intro k hk
        exact absurd rfl hk
  | append_singleton l rt ih =>
      rw [List.map_append] at hnd
      rw [List.nodup_append] at hnd
      obtain ⟨hnd1, _, hdisj⟩ := hnd
      have hfresh : rt.1 ∉ l.map Prod.fst := by
        intro hmem
        exact hdisj hmem (by simp)
      rw [runExtract, List.foldl_append]
      exact extractInv_step base zs l _ rt (ih hnd1) hfresh

theorem nodup_keys_buildRelid (rels : List DocRel) :
    ((buildRelidToTarget rels).map Prod.fst).Nodup := by
  suffices h : ∀ (rels : List DocRel) (acc : List (Str × Str)), (acc.map Prod.fst).Nodup →
      ((rels.foldl (fun d r =>
        if "image".toList <:+: r.reltype then dset d r.rId r.target_ref else d) acc).map
        Prod.fst).Nodup by
    exact h rels [] List.nodup_nil
  intro rels
  induction rels with
  | nil => exact fun acc h => h
  | cons r t ih =>
      intro acc hacc
      rw [List.foldl_cons]
      by_cases hr : "image".toList <:+: r.reltype
      · rw [if_pos hr]
        exact ih _ (nodup_keys_dset acc r.rId r.target_ref hacc)
      · rw [if_neg hr]
        exact ih acc hacc

/-! ## Per-document projections -/

/-- The `relid_to_target` dict of a document. -/
def r2tOf (doc : Docx) : List (Str × Str) :=
  buildRelidToTarget doc.rels

/-- Final loop state of `extract_images_from_docx` on a document. -/
def extractStateOf (doc : Docx) (base : Str) : ExtractState :=
  runExtract base doc.zentries (r2tOf doc)

/-- The rid → external-filename map returned for a document. -/
def imageMapOf (doc : Docx) (base : Str) : List (Str × Str) :=
  (extract_images_from_docx doc base).1

/-- Distinct normalized container paths of a document, in first-seen order. -/
def firstSeenOf (doc : Docx) : List Str :=
  firstSeen (pathsOf (r2tOf doc))

theorem imageMapOf_eq (doc : Docx) (base : Str) :
    imageMapOf doc base = (extractStateOf doc base).image_map := rfl

theorem docInv (doc : Docx) (base : Str) :
    ExtractInv base doc.zentries (r2tOf doc) (extractStateOf doc base) :=
  runExtract_inv base doc.zentries (r2tOf doc) (nodup_keys_buildRelid doc.rels)

/-! ## Run renderer characterization -/

/-- Pieces one run appends to `runs_output` (lines 47-65). -/
def runPieces (m : List (Str × Str)) (run : Run) : List Str :=
  if run.drawings ≠ [] then run.drawings.filterMap (drawingToken m)
  else if run.text ≠ [] then [run.text]
  else []

theorem drawings_foldl_eq (m : List (Str × Str)) (ds : List Drawing) (acc : List Str) :
    ds.foldl (drawingFold m) acc = acc ++ ds.filterMap (drawingToken m) := by
  refine foldl_opt_acc (drawingToken m) (drawingFold m) ?_ ds acc
  intro acc d
  cases h : drawingToken m d <;> simp [drawingFold, h]

theorem runs_foldl_eq (m : List (Str × Str)) (runs : List Run) (acc : List Str) :
    runs.foldl (runStep m) acc = acc ++ runs.flatMap (runPieces m) := by
  refine foldl_pieces_acc (runPieces m) (runStep m) ?_ runs acc
  intro acc run
  unfold runStep runPieces
  by_cases hd : run.drawings ≠ []
  · rw [if_pos hd, if_pos hd]
    exact drawings_foldl_eq m run.drawings acc
  · rw [if_neg hd, if_neg hd]
    by_cases ht : run.text ≠ []
    · rw [if_pos ht, if_pos ht]
    · rw [if_neg ht, if_neg ht, List.append_nil]

theorem extract_paragraph_eq (runs : List Run) (m : List (Str × Str)) :
    extract_paragraph_with_images runs m
      = pyStrip (List.flatten (runs.flatMap (runPieces m))) := by
  rw [extract_paragraph_with_images, runs_foldl_eq]
  rfl

theorem extract_paragraph_pyStrip (runs : List Run) (m : List (Str × Str)) :
    pyStrip (extract_paragraph_with_images runs m) = extract_paragraph_with_images runs m := by
  rw [extract_paragraph_with_images]
  exact pyStrip_idem _

/-- Relationship identifier carried by a drawing, through its blip. -/
def drawingRid (d : Drawing) : Option Str :=
  d.blip.bind Blip.embed

/-- Contribution of one drawing per the specification: its placeholder when
its relationship identifier is present in the index, nothing otherwise. -/
def specDrawingPiece (m : List (Str × Str)) (d : Drawing) : Str :=
  match drawingRid d with
  | some rid =>
      match dget m rid with
      | some fn => "[[image:".toList ++ fn ++ "]]".toList
      | none => []
  | none => []

/-- Contribution of one run per the specification: placeholders only for an
image-bearing run (text discarded), the literal text otherwise. -/
def specRunPiece (m : List (Str × Str)) (run : Run) : Str :=
  if run.drawings = [] then run.text
  else (run.drawings.map (specDrawingPiece m)).flatten

theorem specDrawingPiece_eq_token (m : List (Str × Str)) (d : Drawing) :
    specDrawingPiece m d = match drawingToken m d with
      | some ph => ph
      | none => [] := by
  obtain ⟨b⟩ := d
  cases b with
  | none => rfl
  | some blip =>
      obtain ⟨e⟩ := blip
      cases e with
      | none => rfl
      | some rid =>
          simp only [specDrawingPiece, drawingToken, drawingRid, Option.bind]
          cases dget m rid <;> rfl

theorem flatten_filterMap_token (m : List (Str × Str)) (ds : List Drawing) :
    (ds.filterMap (drawingToken m)).flatten = (ds.map (specDrawingPiece m)).flatten := by
  induction ds with
  | nil => rfl
  | cons d t ih =>
      rw [List.filterMap_cons, List.map_cons, List.flatten_cons]
      cases h : drawingToken m d with
      | none =>
          rw [specDrawingPiece_eq_token, h, ih]
          rfl
      | some ph =>
          rw [List.flatten_cons, specDrawingPiece_eq_token, h, ih]

theorem flatten_flatMap {α β : Type} (g : α → List (List β)) (l : List α) :
    (l.flatMap g).flatten = (l.map (fun a => (g a).flatten)).flatten := by
  induction l with
  | nil => rfl
  | cons a t ih =>
      rw [List.flatMap_cons, List.map_cons, List.flatten_append, List.flatten_cons, ih]

theorem runPieces_flatten (m : List (Str × Str)) (run : Run) :
    (runPieces m run).flatten = specRunPiece m run := by
  unfold runPieces specRunPiece
  by_cases hd : run.drawings = []
  · rw [if_neg (by simpa using hd), if_pos hd]
    by_cases ht : run.text ≠ []
    · rw [if_pos ht, List.flatten_cons]
      simp
    · rw [if_neg ht]
      simp only [ne_eq, Decidable.not_not] at ht
      rw [ht]
      rfl
  · rw [if_pos (by simpa using hd), if_neg hd]
    exact flatten_filterMap_token m run.drawings

/-! ## Cell renderer characterization -/

/-- Line a paragraph contributes in list-preserving mode (lines 78-88):
nothing when its render is empty, an indented bullet line for a list
paragraph, the render itself otherwise. -/
def specCellLine (m : List (Str × Str)) (p : Paragraph) : Option Str :=
  let content := extract_paragraph_with_images p.runs m
  if content = [] then none
  else if is_list_paragraph p then some (bulletLine (get_list_level p) content)
  else some content

/-- Part a paragraph contributes in title mode (lines 99-102). -/
def titlePart (m : List (Str × Str)) (p : Paragraph) : Option Str :=
  let content := extract_paragraph_with_images p.runs m
  if content = [] then none else some content

theorem extract_cell_text_eq (cell : List Paragraph) (m : List (Str × Str)) :
    extract_cell_text_preserve_lists_and_images cell m
      = pyJoin ['\n'] (cell.filterMap (specCellLine m)) := by
  rw [extract_cell_text_preserve_lists_and_images]
  rw [foldl_opt_acc (specCellLine m)
    (fun ls p =>
      let content := extract_paragraph_with_images p.runs m
      if content = [] then ls
      else if is_list_paragraph p then ls ++ [bulletLine (get_list_level p) content]
      else ls ++ [content])
    (by
      intro ls p
      simp only [specCellLine]
      by_cases h1 : extract_paragraph_with_images p.runs m = []
      · simp [h1]
      · by_cases h2 : is_list_paragraph p <;> simp [h1, h2])
    cell []]
  rfl

theorem extract_cell_title_eq (cell : List Paragraph) (m : List (Str × Str)) :
    extract_cell_title_with_images cell m
      = pyStrip (pyJoin [' '] (cell.filterMap (titlePart m))) := by
  rw [extract_cell_title_with_images]
  rw [foldl_opt_acc (titlePart m)
    (fun parts p =>
      let content := extract_paragraph_with_images p.runs m
      if content = [] then parts else parts ++ [content])
    (by
      intro parts p
      simp only [titlePart]
      by_cases h1 : extract_paragraph_with_images p.runs m = [] <;> simp [h1])
    cell []]
  rfl

theorem extract_cell_title_pyStrip (cell : List Paragraph) (m : List (Str × Str)) :
    pyStrip (extract_cell_title_with_images cell m) = extract_cell_title_with_images cell m := by
  rw [extract_cell_title_with_images]
  exact pyStrip_idem _

theorem specCellLine_has_nonWs (m : List (Str × Str)) (p : Paragraph) (line : Str)
    (h : specCellLine m p = some line) : ∃ c ∈ line, wsChar c = false := by
  unfold specCellLine at h
  by_cases h1 : extract_paragraph_with_images p.runs m = []
  · rw [if_pos h1] at h
    exact absurd h (by simp)
  · rw [if_neg h1] at h
    by_cases h2 : is_list_paragraph p
    · rw [if_pos h2] at h
      injection h with h
      refine ⟨'•', ?_, by decide⟩
      rw [← h]
      unfold bulletLine
      exact List.mem_append.mpr (Or.inr (List.mem_cons.mpr (Or.inl rfl)))
    · rw [if_neg h2] at h
      injection h with h
      subst h
      by_contra hc
      push_neg at hc
      refine h1 ?_
      rw [← extract_paragraph_pyStrip p.runs m, pyStrip_eq_nil_iff]
      intro c hcmem
      have := hc c hcmem
      cases hw : wsChar c with
      | true => rfl
      | false => exact absurd hw this

/-! ## Manifest lemmas -/

theorem lexLe_trans (a b c : Str) (hab : lexLe a b = true) (hbc : lexLe b c = true) :
    lexLe a c = true := by
  induction a generalizing b c with
  | nil => rfl
  | cons a0 as ih =>
      cases b with
      | nil => simp [lexLe] at hab
      | cons b0 bs =>
          cases c with
          | nil => simp [lexLe] at hbc
          | cons c0 cs =>
              rw [lexLe] at hab hbc ⊢
              by_cases hab0 : a0 = b0
              · by_cases hbc0 : b0 = c0
                · rw [if_pos hab0] at hab
                  rw [if_pos hbc0] at hbc
                  rw [if_pos (hab0.trans hbc0)]
                  exact ih bs cs hab hbc
                · rw [if_neg hbc0] at hbc
                  have hlt : b0 < c0 := by simpa using hbc
                  rw [if_neg (by rw [hab0]; exact hbc0)]
                  simpa using hab0 ▸ hlt
              · rw [if_neg hab0] at hab
                have hlt1 : a0 < b0 := by simpa using hab
                by_cases hbc0 : b0 = c0
                · rw [if_neg (by rw [← hbc0]; exact hab0)]
                  simpa using hbc0 ▸ hlt1
                · rw [if_neg hbc0] at hbc
                  have hlt2 : b0 < c0 := by simpa using hbc
                  have hlt : a0 < c0 := lt_trans hlt1 hlt2
                  rw [if_neg (ne_of_lt hlt)]
                  simpa using hlt

theorem lexLe_total (a b : Str) : lexLe a b = true ∨ lexLe b a = true := by
  induction a generalizing b with
  | nil => exact Or.inl rfl
  | cons a0 as ih =>
      cases b with
      | nil => exact Or.inr rfl
      | cons b0 bs =>
          rw [lexLe, lexLe]
          by_cases he : a0 = b0
          · rw [if_pos he, if_pos he.symm]
            exact ih bs
          · rw [if_neg he, if_neg (Ne.symm he)]
            rcases lt_or_gt_of_ne he with hlt | hlt
            · exact Or.inl (by simpa using hlt)
            · exact Or.inr (by simpa using hlt)

instance : IsTrans Entry entryRel :=
  ⟨fun a b c hab hbc => lexLe_trans (entryKey a) (entryKey b) (entryKey c) hab hbc⟩

instance : IsTotal Entry entryRel :=
  ⟨fun a b => lexLe_total (entryKey a) (entryKey b)⟩

theorem applyOps_untouched (idx : MIndex) (ops : List UpsertOp) (k : Str)
    (h : ∀ op ∈ ops, op.filename ≠ k) : dget (applyOps idx ops) k = dget idx k := by
  induction ops generalizing idx with
  | nil => rfl
  | cons op t ih =>
      rw [applyOps, List.foldl_cons, ← applyOps]
      rw [ih (upsert idx op) (fun o ho => h o (List.mem_cons_of_mem _ ho))]
      rw [upsert, dget_dset_ne _ _ _ _ (h op (List.mem_cons_self _ _))]

theorem dget_upsert_self (idx : MIndex) (op : UpsertOp) :
    dget (upsert idx op) op.filename
      = some (setFields ((dget idx op.filename).getD [("path".toList, op.filename)]) op) :=
  dget_dset_self _ _ _

theorem setFields_type (e : Entry) (op : UpsertOp) :
    dget (setFields e op) "type".toList = some op.typeVal := by
  rw [setFields, dget_dset_ne _ _ _ _ (by decide), dget_dset_ne _ _ _ _ (by decide),
    dget_dset_self]

theorem setFields_source (e : Entry) (op : UpsertOp) :
    dget (setFields e op) "source_docx".toList = some op.sourceDocx := by
  rw [setFields, dget_dset_ne _ _ _ _ (by decide), dget_dset_self]

theorem setFields_parsed (e : Entry) (op : UpsertOp) :
    dget (setFields e op) "parsed_at".toList = some op.parsedAt := by
  rw [setFields, dget_dset_self]

theorem setFields_other (e : Entry) (op : UpsertOp) (f : Str)
    (h1 : f ≠ "type".toList) (h2 : f ≠ "source_docx".toList) (h3 : f ≠ "parsed_at".toList) :
    dget (setFields e op) f = dget e f := by
  rw [setFields, dget_dset_ne _ _ _ _ (Ne.symm h3), dget_dset_ne _ _ _ _ (Ne.symm h2),
    dget_dset_ne _ _ _ _ (Ne.symm h1)]

theorem applyOps_path_consistent (idx : MIndex) (ops : List UpsertOp)
    (h : ∀ k e, dget idx k = some e → dget e "path".toList = some k) :
    ∀ k e, dget (applyOps idx ops) k = some e → dget e "path".toList = some k := by
  induction ops generalizing idx with
  | nil => exact h
  | cons op t ih =>
      rw [applyOps, List.foldl_cons, ← applyOps]
      refine ih (upsert idx op) ?_
      intro k e he
      by_cases hk : op.filename = k
      · subst hk
        rw [dget_upsert_self] at he
        injection he with he
        subst he
        rw [setFields_other _ _ _ (by decide) (by decide) (by decide)]
        cases hd : dget idx op.filename with
        | none => rfl
        | some e0 => exact h op.filename e0 hd
      · rw [upsert, dget_dset_ne _ _ _ _ hk] at he
        exact h k e he

/-! ## Claim theorems -/

/-- Sample document used by witnesses: two relationships share one container
entry, one points at a missing entry, one has an extensionless target, and
one is not an image relationship. -/
def sampleDoc : Docx :=
  { rels :=
      [ { rId := "rId1".toList, reltype := "http://x/image".toList,
          target_ref := "media/image1.png".toList }
      , { rId := "rId2".toList, reltype := "http://x/image".toList,
          target_ref := "/word/media/image1.png".toList }
      , { rId := "rId3".toList, reltype := "http://x/image".toList,
          target_ref := "media/missing.png".toList }
      , { rId := "rId4".toList, reltype := "http://x/image".toList,
          target_ref := "media/image2".toList }
      , { rId := "rId5".toList, reltype := "http://x/hyperlink".toList,
          target_ref := "http://e".toList } ]
    zentries :=
      [ ("word/media/image1.png".toList, "PNGDATA".toList)
      , ("word/media/image2".toList, "BINDATA".toList) ]
    tables := [] }

/-- Base name used by witnesses. -/
def sampleBase : Str := "doc".toList

/-- C1: two relationship identifiers whose normalized container paths are
equal are mapped identically by `extract_images_from_docx`; the underlying
container entry is extracted (written) at most once; and a step that reuses
an already-resolved path performs no extraction and leaves the sequence
counter unchanged. -/
theorem image_dedup_by_path (doc : Docx) (base : Str) :
    (∀ r1 t1 r2 t2, (r1, t1) ∈ r2tOf doc → (r2, t2) ∈ r2tOf doc →
      normZipPath t1 = normZipPath t2 →
      dget (imageMapOf doc base) r1 = dget (imageMapOf doc base) r2)
    ∧ ((extractStateOf doc base).writes.map (fun w => w.1)).Nodup
    ∧ (∀ (st : ExtractState) (rid t : Str) (fn? : Option Str),
        dget st.target_to_final (normZipPath t) = some fn? →
          (extractStep base doc.zentries st (rid, t)).writes = st.writes
          ∧ (extractStep base doc.zentries st (rid, t)).counter = st.counter) := by
  obtain ⟨h1, h2, h3, h4, h5⟩ := docInv doc base
  refine ⟨?_, ?_, ?_⟩
  · intro r1 t1 r2 t2 hm1 hm2 heq
    rw [imageMapOf_eq, h4 (r1, t1) hm1, h4 (r2, t2) hm2]
    simp only
    rw [heq]
  · rw [h3]
    exact nodup_fst_expWrites base doc.zentries (pathsOf (r2tOf doc))
  · intro st rid t fn? hc
    rw [extractStep_cached base doc.zentries st (rid, t) fn? hc]
    exact ⟨recordFinal_writes _ _ _, recordFinal_counter _ _ _⟩

/-- Witness for C1: in the sample document, `rId1` and `rId2` reference the
same container entry and receive the same mapping. -/
theorem image_dedup_by_path_witness :
    dget (imageMapOf sampleDoc sampleBase) "rId1".toList
      = dget (imageMapOf sampleDoc sampleBase) "rId2".toList :=
  (image_dedup_by_path sampleDoc sampleBase).1 "rId1".toList "media/image1.png".toList
    "rId2".toList "/word/media/image1.png".toList (by decide) (by decide) (by decide)

/-- C2: every external filename assigned by `extract_images_from_docx` is
`<base>_Image<NN><ext>` where `ext` is the source path's extension (".bin"
when it has none, folded into `extOrBin`) and `NN` is the zero-padded
sequence number `i + 1` of the path's 1-based, first-seen position among the
document's distinct container paths — hence numbering starts at 1 and is
strictly increasing in first-seen order, scoped to this document. -/
theorem image_filename_sequence (doc : Docx) (base : Str) (rid t fn : Str)
    (hmem : (rid, t) ∈ r2tOf doc)
    (hfn : dget (imageMapOf doc base) rid = some fn) :
    ∃ i : Nat, (firstSeenOf doc)[i]? = some (normZipPath t)
      ∧ fn = imageName base (i + 1) (extOrBin (normZipPath t))
      ∧ (dget doc.zentries (normZipPath t)).isSome = true := by
  obtain ⟨h1, h2, h3, h4, h5⟩ := docInv doc base
  rw [imageMapOf_eq] at hfn
  have hj : (dget (extractStateOf doc base).target_to_final (normZipPath t)).join = some fn := by
    rw [← h4 (rid, t) hmem]
    exact hfn
  have hpmem : normZipPath t ∈ pathsOf (r2tOf doc) := List.mem_map.mpr ⟨(rid, t), hmem, rfl⟩
  have hfsmem : normZipPath t ∈ firstSeen (pathsOf (r2tOf doc)) :=
    (mem_firstSeen _ _).mpr hpmem
  obtain ⟨i, hi⟩ := List.mem_iff_getElem?.mp hfsmem
  have hd := dget_expTtf_getElem base doc.zentries (pathsOf (r2tOf doc)) i _ hi
  rw [h1, hd] at hj
  have hj2 : resolvedName base doc.zentries (i + 1) (normZipPath t) = some fn := hj
  refine ⟨i, hi, ?_, ?_⟩
  · cases hz : dget doc.zentries (normZipPath t) with
    | none =>
        unfold resolvedName at hj2
        rw [hz] at hj2
        exact absurd hj2 (by simp)
    | some c =>
        unfold resolvedName at hj2
        rw [hz] at hj2
        injection hj2 with hj2
        exact hj2.symm
  · cases hz : dget doc.zentries (normZipPath t) with
    | none =>
        unfold resolvedName at hj2
        rw [hz] at hj2
        exact absurd hj2 (by simp)
    | some c => rfl

/-- Witness for C2: `rId4` of the sample document targets the extensionless
entry `word/media/image2`, third distinct path, and is thus named
`doc_Image03.bin`. -/
theorem image_filename_sequence_witness :
    ∃ i : Nat, (firstSeenOf sampleDoc)[i]? = some (normZipPath "media/image2".toList)
      ∧ "doc_Image03.bin".toList
          = imageName sampleBase (i + 1) (extOrBin (normZipPath "media/image2".toList))
      ∧ (dget sampleDoc.zentries (normZipPath "media/image2".toList)).isSome = true :=
  image_filename_sequence sampleDoc sampleBase "rId4".toList "media/image2".toList
    "doc_Image03.bin".toList (by decide) (by decide)

/-- C3: `extract_paragraph_with_images` renders the runs in order, each
image-bearing run contributing exactly the placeholders of its drawings that
resolve in the index (its text discarded), each plain run contributing its
literal text, all concatenated with no separator and stripped. -/
theorem paragraph_render_spec (runs : List Run) (m : List (Str × Str)) :
    extract_paragraph_with_images runs m
      = pyStrip (List.flatten (runs.map (specRunPiece m))) := by
  rw [extract_paragraph_eq, flatten_flatMap]
  simp only [runPieces_flatten]

theorem drawingToken_eq_none (m : List (Str × Str)) (d : Drawing)
    (h : ∀ rid, drawingRid d = some rid → dget m rid = none) :
    drawingToken m d = none := by
  obtain ⟨b⟩ := d
  cases b with
  | none => rfl
  | some blip =>
      obtain ⟨e⟩ := blip
      cases e with
      | none => rfl
      | some rid =>
          have hz := h rid rfl
          simp only [drawingToken]
          rw [hz]

/-- C4: a relationship whose normalized target path is absent from the
container contributes no `image_map` entry and no zip-entry copy; and a
drawing whose relationship identifier is not in the index contributes no
placeholder, leaving the output pieces unchanged. Every function involved is
total, so no error is raised in either case. -/
theorem missing_image_skipped (doc : Docx) (base : Str) :
    (∀ rid t, (rid, t) ∈ r2tOf doc → dget doc.zentries (normZipPath t) = none →
      dget (imageMapOf doc base) rid = none
      ∧ normZipPath t ∉ (extractStateOf doc base).writes.map (fun w => w.1))
    ∧ (∀ (m : List (Str × Str)) (acc : List Str) (d : Drawing),
        (∀ rid, drawingRid d = some rid → dget m rid = none) → drawingFold m acc d = acc)
    ∧ (∀ (m : List (Str × Str)) (acc : List Str) (run : Run), run.drawings ≠ [] →
        (∀ d ∈ run.drawings, ∀ rid, drawingRid d = some rid → dget m rid = none) →
        runStep m acc run = acc) := by
  obtain ⟨h1, h2, h3, h4, h5⟩ := docInv doc base
  refine ⟨?_, ?_, ?_⟩
  · intro rid t hmem hz
    have hpmem : normZipPath t ∈ pathsOf (r2tOf doc) := List.mem_map.mpr ⟨(rid, t), hmem, rfl⟩
    have hfsmem : normZipPath t ∈ firstSeen (pathsOf (r2tOf doc)) :=
      (mem_firstSeen _ _).mpr hpmem
    obtain ⟨i, hi⟩ := List.mem_iff_getElem?.mp hfsmem
    have hd := dget_expTtf_getElem base doc.zentries (pathsOf (r2tOf doc)) i _ hi
    have hres : resolvedName base doc.zentries (i + 1) (normZipPath t) = none := by
      unfold resolvedName
      rw [hz]
    constructor
    · rw [imageMapOf_eq, h4 (rid, t) hmem]
      simp only
      rw [h1, hd, hres]
      rfl
    · rw [h3]
      intro hcontra
      have := mem_fst_filterMap_writeOf doc.zentries (expTtf base doc.zentries (pathsOf (r2tOf doc)))
        (normZipPath t) hcontra
      rw [hz] at this
      simp at this
  · intro m acc d hrid
    unfold drawingFold
    rw [drawingToken_eq_none m d hrid]
  · intro m acc run hne hall
    unfold runStep
    rw [if_pos hne, drawings_foldl_eq]
    have hnil : run.drawings.filterMap (drawingToken m) = [] := by
      rw [List.filterMap_eq_nil_iff]
      intro d hd
      exact drawingToken_eq_none m d (hall d hd)
    rw [hnil, List.append_nil]

/-- Witness for C4: `rId3` of the sample document targets the missing entry
`word/media/missing.png` and thus gets no mapping and no write. -/
theorem missing_image_skipped_witness :
    dget (imageMapOf sampleDoc sampleBase) "rId3".toList = none
    ∧ normZipPath "media/missing.png".toList
        ∉ (extractStateOf sampleDoc sampleBase).writes.map (fun w => w.1) :=
  (missing_image_skipped sampleDoc sampleBase).1 "rId3".toList "media/missing.png".toList
    (by decide) (by decide)

/-- C5: the list-preserving cell renderer renders each paragraph via the run
renderer, skips empty renders, and emits for a list paragraph `level` tabs,
a bullet and a space before the content, the level being `get_list_level`,
which is 0 whenever `pPr`, `numPr`, `ilvl` is absent or the level value is
unparsable; non-list paragraphs are emitted unmodified; lines are joined
with a newline. -/
theorem cell_render_list_levels :
    (∀ (cell : List Paragraph) (m : List (Str × Str)),
      extract_cell_text_preserve_lists_and_images cell m
        = pyJoin ['\n'] (cell.filterMap (specCellLine m)))
    ∧ (∀ p : Paragraph, p.pPr = none → get_list_level p = 0)
    ∧ (∀ (p : Paragraph) (pr : PPr), p.pPr = some pr → pr.numPr = none → get_list_level p = 0)
    ∧ (∀ (p : Paragraph) (pr : PPr) (np : NumPr), p.pPr = some pr → pr.numPr = some np →
        np.ilvl = none → get_list_level p = 0)
    ∧ (∀ (p : Paragraph) (pr : PPr) (np : NumPr) (il : Ilvl), p.pPr = some pr →
        pr.numPr = some np → np.ilvl = some il → il.val = none → get_list_level p = 0) := by
  refine ⟨extract_cell_text_eq, ?_, ?_, ?_, ?_⟩
  · intro p h
    unfold get_list_level
    rw [h]
  · intro p pr h1 h2
    simp [get_list_level, h1, h2]
  · intro p pr np h1 h2 h3
    simp [get_list_level, h1, h2, h3]
  · intro p pr np il h1 h2 h3 h4
    simp [get_list_level, h1, h2, h3, h4]

/-- Witness for C5: a paragraph with numbering properties whose level value
is unparsable defaults to level 0. -/
theorem cell_render_list_levels_witness :
    get_list_level
      { pPr := some { numPr := some { ilvl := some { val := none } } }, runs := [] } = 0 :=
  cell_render_list_levels.2.2.2.2
    { pPr := some { numPr := some { ilvl := some { val := none } } }, runs := [] }
    { numPr := some { ilvl := some { val := none } } }
    { ilvl := some { val := none } }
    { val := none } rfl rfl rfl rfl

/-! ## Table extractor characterization -/

/-- Title mode of the specification: non-empty paragraph renders joined with
a single space, then trimmed; list properties are ignored. -/
def specTitle (m : List (Str × Str)) (cell : List Paragraph) : Str :=
  pyStrip (pyJoin [' '] (cell.filterMap (titlePart m)))

/-- List-preserving mode of the specification: non-empty paragraph lines
joined with a newline. -/
def specDetail (m : List (Str × Str)) (cell : List Paragraph) : Str :=
  pyJoin ['\n'] (cell.filterMap (specCellLine m))

/-- Record a row yields per the specification: skipped with fewer than two
cells, title from cell 0 in title mode, detail from cell 1 in
list-preserving mode, emitted iff one of them is non-empty after trimming. -/
def specRow (m : List (Str × Str)) (row : TableRow) : Option (Str × Str) :=
  if row.cells.length < 2 then none
  else
    if pyStrip (specTitle m (row.cells.getD 0 [])) = []
        ∧ pyStrip (specDetail m (row.cells.getD 1 [])) = [] then none
    else some (specTitle m (row.cells.getD 0 []), specDetail m (row.cells.getD 1 []))

/-- Card fold of `parse_docx_table_with_images` (lines 190-203), with the
let-bound locals inlined. -/
def codeCards (doc : Docx) (base : Str) (ti : Nat) (hh : Bool) : List (Str × Str) :=
  ((doc.tables.getD ti ⟨[]⟩).rows.drop (if hh then 1 else 0)).foldl
    (fun cs row =>
      if row.cells.length < 2 then cs
      else
        if extract_cell_title_with_images (row.cells.getD 0 []) (imageMapOf doc base) = []
            ∧ extract_cell_text_preserve_lists_and_images (row.cells.getD 1 [])
                (imageMapOf doc base) = [] then cs
        else cs ++ [(extract_cell_title_with_images (row.cells.getD 0 []) (imageMapOf doc base),
          extract_cell_text_preserve_lists_and_images (row.cells.getD 1 [])
            (imageMapOf doc base))]) []

theorem parse_reduce (doc : Docx) (base : Str) (ti : Nat) (hh : Bool) :
    parse_docx_table_with_images doc base ti hh
      = if doc.tables.length ≤ ti then Except.error tableIndexError
        else Except.ok (codeCards doc base ti hh, (extract_images_from_docx doc base).2) := rfl

theorem specTitle_strip (m : List (Str × Str)) (cell : List Paragraph) :
    pyStrip (specTitle m cell) = specTitle m cell :=
  pyStrip_idem _

theorem specDetail_strip_nil_iff (m : List (Str × Str)) (cell : List Paragraph) :
    pyStrip (specDetail m cell) = [] ↔ specDetail m cell = [] := by
  refine pyStrip_pyJoin_eq_nil ['\n'] (cell.filterMap (specCellLine m)) ?_
  intro l hl
  obtain ⟨p, _, hline⟩ := List.mem_filterMap.mp hl
  exact specCellLine_has_nonWs m p l hline

theorem codeCards_eq (doc : Docx) (base : Str) (ti : Nat) (hh : Bool) :
    codeCards doc base ti hh
      = ((doc.tables.getD ti ⟨[]⟩).rows.drop (if hh then 1 else 0)).filterMap
          (specRow (imageMapOf doc base)) := by
  rw [codeCards]
  rw [foldl_opt_acc (specRow (imageMapOf doc base))
    (fun cs row =>
      if row.cells.length < 2 then cs
      else
        if extract_cell_title_with_images (row.cells.getD 0 []) (imageMapOf doc base) = []
            ∧ extract_cell_text_preserve_lists_and_images (row.cells.getD 1 [])
                (imageMapOf doc base) = [] then cs
        else cs ++ [(extract_cell_title_with_images (row.cells.getD 0 []) (imageMapOf doc base),
          extract_cell_text_preserve_lists_and_images (row.cells.getD 1 [])
            (imageMapOf doc base))])
    ?_ _ []]
  · rfl
  · intro cs row
    dsimp only
    unfold specRow
    by_cases hlen : row.cells.length < 2
    · rw [if_pos hlen, if_pos hlen]
    · rw [if_neg hlen, if_neg hlen]
      rw [extract_cell_title_eq, extract_cell_text_eq]
      rw [← specTitle, ← specDetail]
      by_cases hcond : pyStrip (specTitle (imageMapOf doc base) (row.cells.getD 0 [])) = []
          ∧ pyStrip (specDetail (imageMapOf doc base) (row.cells.getD 1 [])) = []
      · rw [if_pos hcond]
        rw [if_pos ⟨by rw [← specTitle_strip]; exact hcond.1,
          (specDetail_strip_nil_iff _ _).mp hcond.2⟩]
      · rw [if_neg hcond]
        rw [if_neg (by
          intro hc
          exact hcond ⟨by rw [specTitle_strip]; exact hc.1,
            (specDetail_strip_nil_iff _ _).mpr hc.2⟩)]

/-- C6: when the requested table exists, `parse_docx_table_with_images`
returns, in row order with no sorting or deduplication, one record per row
of the table past the optional header (start row 1 with a header, 0
without), skipping rows with fewer than two cells, with the title from
cell 0 in title mode, the detail from cell 1 in list-preserving mode, a
record being emitted iff title or detail is non-empty after trimming. -/
theorem table_rows_to_records (doc : Docx) (base : Str) (table_index : Nat) (has_header : Bool)
    (h : table_index < doc.tables.length) :
    parse_docx_table_with_images doc base table_index has_header
      = Except.ok
          ((((doc.tables.getD table_index ⟨[]⟩).rows.drop
              (if has_header then 1 else 0)).filterMap (specRow (imageMapOf doc base))),
            (extract_images_from_docx doc base).2) := by
  rw [parse_reduce, if_neg (not_le.mpr h), codeCards_eq]

/-- C7: `parse_docx_table_with_images` fails iff the requested table index
does not exist (the table count is at most the index), and then with the
descriptive index error. -/
theorem table_index_error_iff (doc : Docx) (base : Str) (ti : Nat) (hh : Bool) :
    ((∃ e, parse_docx_table_with_images doc base ti hh = .error e) ↔ doc.tables.length ≤ ti)
    ∧ (doc.tables.length ≤ ti →
        parse_docx_table_with_images doc base ti hh = .error tableIndexError) := by
  constructor
  · constructor
    · rintro ⟨e, he⟩
      by_contra hlt
      rw [parse_reduce, if_neg hlt] at he
      exact Except.noConfusion he
    · intro hle
      exact ⟨tableIndexError, by rw [parse_reduce, if_pos hle]⟩
  · intro hle
    rw [parse_reduce, if_pos hle]

/-- C8: over a batch of upserts followed by `save_manifest`: untouched
filename keys keep their entry, which also survives in the saved files
list; an upsert overwrites exactly `type`, `source_docx` and `parsed_at`
(defaulting a fresh entry to `{"path": filename}`) and preserves every
other field; the saved files list is the flattened index sorted by the
entries' path field, which stays equal to the filename key. -/
theorem manifest_upsert_save_spec (idx0 : MIndex) (ops : List UpsertOp) (data : ManifestData)
    (now : Str) :
    (∀ k, (∀ op ∈ ops, op.filename ≠ k) → dget (applyOps idx0 ops) k = dget idx0 k)
    ∧ (∀ k e, dget idx0 k = some e → (∀ op ∈ ops, op.filename ≠ k) →
        e ∈ (save_manifest now data (applyOps idx0 ops)).files)
    ∧ (∀ (idx : MIndex) (op : UpsertOp),
        dget (upsert idx op) op.filename
          = some (setFields ((dget idx op.filename).getD [("path".toList, op.filename)]) op)
        ∧ (∀ e : Entry, dget (setFields e op) "type".toList = some op.typeVal
            ∧ dget (setFields e op) "source_docx".toList = some op.sourceDocx
            ∧ dget (setFields e op) "parsed_at".toList = some op.parsedAt)
        ∧ (∀ (e : Entry) (f : Str), f ≠ "type".toList → f ≠ "source_docx".toList →
            f ≠ "parsed_at".toList → dget (setFields e op) f = dget e f))
    ∧ ((save_manifest now data (applyOps idx0 ops)).files.Perm
          ((applyOps idx0 ops).map Prod.snd)
        ∧ (save_manifest now data (applyOps idx0 ops)).files.Sorted entryRel
        ∧ (save_manifest now data (applyOps idx0 ops)).generated_at = some now)
    ∧ ((∀ k e, dget idx0 k = some e → dget e "path".toList = some k) →
        ∀ k e, dget (applyOps idx0 ops) k = some e → dget e "path".toList = some k) := by
  refine ⟨applyOps_untouched idx0 ops, ?_, ?_,
    ⟨List.perm_insertionSort entryRel _, List.sorted_insertionSort entryRel _, rfl⟩,
    applyOps_path_consistent idx0 ops⟩
  · intro k e he hop
    have hfinal : dget (applyOps idx0 ops) k = some e := by
      rw [applyOps_untouched idx0 ops k hop]
      exact he
    have hmem : (k, e) ∈ applyOps idx0 ops := mem_of_dget _ _ _ hfinal
    have hmem2 : e ∈ (applyOps idx0 ops).map Prod.snd := List.mem_map.mpr ⟨(k, e), hmem, rfl⟩
    exact ((List.perm_insertionSort entryRel _).mem_iff).mpr hmem2
  · intro idx op
    exact ⟨dget_upsert_self idx op,
      fun e => ⟨setFields_type e op, setFields_source e op, setFields_parsed e op⟩,
      fun e f h1 h2 h3 => setFields_other e op f h1 h2 h3⟩

/-- Manifest index of an earlier batch, used by the C8 witness: one entry
with an extra `note` field, untouched by the batch. -/
def sampleIdx : MIndex :=
  [("a.json".toList,
    [("path".toList, "a.json".toList), ("note".toList, "keep me".toList)])]

/-- Batch of the C8 witness: one upsert of a different filename. -/
def sampleOps : List UpsertOp :=
  [{ filename := "b.json".toList, typeVal := "json".toList,
     sourceDocx := "b.docx".toList, parsedAt := "2026-01-01T00:00:00+00:00".toList }]

/-- Witness for C8: the untouched `a.json` entry is unchanged in the final
index and survives in the saved files list. -/
theorem manifest_upsert_save_spec_witness :
    dget (applyOps sampleIdx sampleOps) "a.json".toList = dget sampleIdx "a.json".toList
    ∧ [("path".toList, "a.json".toList), ("note".toList, "keep me".toList)]
        ∈ (save_manifest "2026-01-02T00:00:00+00:00".toList { generated_at := none, files := [] }
            (applyOps sampleIdx sampleOps)).files :=
  ⟨(manifest_upsert_save_spec sampleIdx sampleOps
      { generated_at := none, files := [] } "2026-01-02T00:00:00+00:00".toList).1
      "a.json".toList (by decide),
    (manifest_upsert_save_spec sampleIdx sampleOps
      { generated_at := none, files := [] } "2026-01-02T00:00:00+00:00".toList).2.1
      "a.json".toList _ (by decide) (by decide)⟩

/-- C9: `load_manifest` yields a fresh empty manifest and empty index when
the file is absent (never an error), propagates the JSON load error when
the file exists but is malformed, and indexes a parsed manifest's entries. -/
theorem load_manifest_spec :
    load_manifest none = .ok ({ generated_at := none, files := [] }, [])
    ∧ load_manifest (some none) = .error jsonLoadError
    ∧ (∀ d : ManifestData, load_manifest (some (some d)) = .ok (d, buildIndex d.files)) :=
  ⟨rfl, rfl, fun _ => rfl⟩

/-- C10: when the i-th distinct container path is missing from the
container, the failure is cached in `target_to_final`, every relationship
referencing that path stays unmapped, the final counter counts every
distinct path (so the failed path consumed its sequence number i+1, later
distinct paths receiving the higher numbers j+1), and a later reference to
the failed path leaves the loop state entirely unchanged — no retry, no
number, no map entry. -/
theorem failed_extraction_consumes_number (doc : Docx) (base : Str) (i : Nat) (p : Str)
    (hfs : (firstSeenOf doc)[i]? = some p)
    (hz : dget doc.zentries p = none) :
    dget (extractStateOf doc base).target_to_final p = some none
    ∧ (∀ rid t, (rid, t) ∈ r2tOf doc → normZipPath t = p →
        dget (imageMapOf doc base) rid = none)
    ∧ (extractStateOf doc base).counter = (firstSeenOf doc).length + 1
    ∧ (∀ j q, (firstSeenOf doc)[j]? = some q →
        dget (extractStateOf doc base).target_to_final q
          = some (resolvedName base doc.zentries (j + 1) q))
    ∧ (∀ (st : ExtractState) (rid t : Str), normZipPath t = p →
        dget st.target_to_final p = some none →
        extractStep base doc.zentries st (rid, t) = st) := by
  obtain ⟨h1, h2, h3, h4, h5⟩ := docInv doc base
  have hdg := dget_expTtf_getElem base doc.zentries (pathsOf (r2tOf doc)) i p hfs
  have hres : resolvedName base doc.zentries (i + 1) p = none := by
    unfold resolvedName
    rw [hz]
  refine ⟨?_, ?_, ?_, ?_, ?_⟩
  · rw [h1, hdg, hres]
  · intro rid t hmem hnorm
    rw [imageMapOf_eq, h4 (rid, t) hmem]
    simp only
    rw [hnorm, h1, hdg, hres]
    rfl
  · rw [h2, length_expTtf]
    rfl
  · intro j q hjq
    rw [h1]
    exact dget_expTtf_getElem base doc.zentries (pathsOf (r2tOf doc)) j q hjq
  · intro st rid t hnorm hcache
    rw [extractStep_cached base doc.zentries st (rid, t) none
      (show dget st.target_to_final (normZipPath t) = some none by rw [hnorm]; exact hcache)]
    rfl

/-- Witness for C10: the missing entry `word/media/missing.png` is the
second distinct path of the sample document and its failure is cached. -/
theorem failed_extraction_consumes_number_witness :
    dget (extractStateOf sampleDoc sampleBase).target_to_final
      "word/media/missing.png".toList = some none :=
  (failed_extraction_consumes_number sampleDoc sampleBase 1 "word/media/missing.png".toList
    (by decide) (by decide)).1

/-- Run of the C6 witness table: a single plain text run. -/
def sampleRunOf (s : Str) : Run :=
  { drawings := [], text := s }

/-- Paragraph of the C6 witness table: no properties, one text run. -/
def sampleParaOf (s : Str) : Paragraph :=
  { pPr := none, runs := [sampleRunOf s] }

/-- Document of the C6 witness: one table with a header row, a data row and
a blank row. -/
def tableDoc : Docx :=
  { rels := []
    zentries := []
    tables :=
      [ { rows :=
          [ { cells := [[sampleParaOf "Term".toList], [sampleParaOf "Meaning".toList]] }
          , { cells := [[sampleParaOf "Cats".toList], [sampleParaOf "item1".toList]] }
          , { cells := [[sampleParaOf " ".toList], [sampleParaOf "".toList]] } ] } ] }

/-- Witness for C6 at the sample table document. -/
theorem table_rows_to_records_witness :
    parse_docx_table_with_images tableDoc sampleBase 0 true
      = Except.ok
          ((((tableDoc.tables.getD 0 ⟨[]⟩).rows.drop
              (if true then 1 else 0)).filterMap (specRow (imageMapOf tableDoc sampleBase))),
            (extract_images_from_docx tableDoc sampleBase).2) :=
  table_rows_to_records tableDoc sampleBase 0 true (by decide)

/-- Witness for C7: requesting table 0 of a document with no tables raises
the index error. -/
theorem table_index_error_iff_witness :
    parse_docx_table_with_images sampleDoc sampleBase 0 true = .error tableIndexError :=
  (table_index_error_iff sampleDoc sampleBase 0 true).2 (by decide)

